import Mathlib

/-!
Verification development for the IDC price-list ingestion pipeline
(`src/providers/idc_pdf.py`, `src/providers/registry.py`).

Lines of extracted text are modelled as `List Char` (the `Line` type below).
Python regular expressions used by the source are small enough that their
matching behaviour on the relevant inputs is deterministic; each one is
translated into an explicit character-level scanner, with the backtracking
behaviour worked out in comments at the definition site.  Python `\s` and
`\d` are modelled by their ASCII subsets (the document family is extracted
from Latin-script PDFs; non-ASCII whitespace or digits never occur in the
relevant tokens).  Python `float` applied to the digit/dot strings produced
by `_parse_price_to_float` is modelled exactly over `ℚ`.
-/

abbrev Line := List Char

/-- ASCII subset of Python's `\s` class: space, tab, newline, carriage
return, vertical tab, form feed. -/
def isSpacePy (c : Char) : Bool :=
  c = ' ' || c = '\t' || c = '\n' || c = '\r' || c = '\x0b' || c = '\x0c'

/-- ASCII decimal digit, the `[0-9]` class (and the ASCII core of `\d`). -/
def isDigitChar (c : Char) : Bool :=
  c.isDigit

/-- The character class `[0-9\.\,]` of `_PRICE_RE` and of the inline price
pattern. -/
def isPriceChar (c : Char) : Bool :=
  isDigitChar c || c = '.' || c = ','

/-- Python `str.strip()` (ASCII whitespace): drop leading whitespace, then
drop trailing whitespace. -/
def stripWS (l : Line) : Line :=
  ((l.dropWhile isSpacePy).reverse.dropWhile isSpacePy).reverse

/-- Decimal value of a digit string, as Python `int` computes it for a
string of ASCII digits (leading zeros allowed). -/
def digitsToNat (l : Line) : Nat :=
  l.foldl (fun a c => 10 * a + (c.toNat - 48)) 0

/-- Does `pat` occur as a contiguous substring of `l`?  Models Python's
`pat in l` for strings. -/
def containsSub (pat l : Line) : Bool :=
  match l with
  | [] => pat.isEmpty
  | _ :: t => pat.isPrefixOf l || containsSub pat t

/-- Case-insensitive prefix test (ASCII case folding), modelling a literal
matched under `re.IGNORECASE`. -/
def ciHasPrefix (pat l : Line) : Bool :=
  (pat.map Char.toLower).isPrefixOf (l.map Char.toLower)

/-! ## Price normalizer (`_parse_price_to_float`, `_PRICE_RE`)

`_PRICE_RE = \$?\s*([0-9\.\,]+)` and the code uses `.search(...).group(1)`.
For the leftmost match of this pattern, group 1 is always the first maximal
run of `[0-9.,]` characters in the string: any match's group consists of
such characters only and extends greedily, and a match starting exactly at
the first such character always exists (the `\$?\s*` prefix can be empty),
so the leftmost match's group starts there. -/

/-- Group 1 of `_PRICE_RE.search`: the first maximal run of `[0-9.,]`
characters, or `none` when no such character occurs. -/
def priceSearchGroup (l : Line) : Option Line :=
  match l.dropWhile (fun c => !isPriceChar c) with
  | [] => none
  | c :: t => some ((c :: t).takeWhile isPriceChar)

/-- Split a character list on `'.'` (Python `str.split(".")`, specialised
to the only separator `parseFloatQ` needs). -/
def splitOnDot (l : Line) : List Line :=
  match l with
  | [] => [[]]
  | c :: rest =>
    if c = '.' then [] :: splitOnDot rest
    else
      match splitOnDot rest with
      | h :: t => (c :: h) :: t
      | [] => [[c]]

/-- Python `float` restricted to the strings `_parse_price_to_float` can
feed it: sequences of ASCII digits and dots.  `float` accepts `d+`, `d+.`,
`.d+` and `d+.d+` and rejects the empty string, a lone dot and anything
with two or more dots; the value is the exact decimal value, modelled in
`ℚ`. -/
def parseFloatQ (l : Line) : Option ℚ :=
  if l.all (fun c => isDigitChar c || c = '.') then
    match splitOnDot l with
    | [a] => if a.isEmpty then none else some (digitsToNat a : ℚ)
    | [a, b] =>
      if a.isEmpty && b.isEmpty then none
      else some ((digitsToNat a : ℚ) + (digitsToNat b : ℚ) / (10 : ℚ) ^ b.length)
    | _ => none
  else none

/-- Model of `idc_pdf._parse_price_to_float`: first `_PRICE_RE` group, then the
thousands/decimal separator rule, then `float`, with `None` on empty input,
no match, or parse failure. -/
def _parse_price_to_float (text : Line) : Option ℚ :=
  if text.isEmpty then none
  else
    match priceSearchGroup text with
    | none => none
    | some g =>
      let raw := stripWS g
      if raw.contains ',' && raw.contains '.' then
        parseFloatQ ((raw.filter (fun c => c ≠ '.')).map (fun c => if c = ',' then '.' else c))
      else if raw.contains ',' then
        parseFloatQ (raw.map (fun c => if c = ',' then '.' else c))
      else
        parseFloatQ raw

/-- The separator-disambiguation rule exactly as the specification words it
(§4.1): both separators present means dot is a thousands separator to be
removed and comma becomes the decimal point; a lone comma becomes the
decimal point; otherwise the token is left as-is.  Stated separately from
`_parse_price_to_float` so the two can be compared. -/
def priceRuleSpec (raw : Line) : Line :=
  if raw.contains ',' && raw.contains '.' then
    (raw.filter (fun c => c ≠ '.')).map (fun c => if c = ',' then '.' else c)
  else if raw.contains ',' then
    raw.map (fun c => if c = ',' then '.' else c)
  else raw

/-! ## Stock normalizer (`_parse_stock`, `_UNITS_RE`)

`_UNITS_RE = (\+?\d+)\s*UNIDADES` with `re.IGNORECASE`, used via `.search`.
At a given start position the match is deterministic: `\+?` can only
succeed by consuming a literal `+` when the following character starts a
digit run (giving back the `+` leaves `\d+` facing `+`, which fails);
`\d+` must take the whole digit run (giving back a digit leaves a digit
where `\s*` must stop and `U` is required); `\s*` must take the whole
whitespace run.  `search` tries start positions left to right. -/

/-- The `\d+\s*UNIDADES` tail of the pattern anchored at the start of `t`:
a non-empty digit run, optional whitespace, then the case-insensitive
marker; the result is the digit run's value, as `int(...)` computes it. -/
def tryUnitsCore (t : Line) : Option Nat :=
  let ds := t.takeWhile isDigitChar
  if ds.isEmpty then none
  else
    let r := (t.dropWhile isDigitChar).dropWhile isSpacePy
    if ciHasPrefix ("UNIDADES".data) r then some (digitsToNat ds) else none

/-- Attempt the `_UNITS_RE` pattern anchored at the start of `l`: the
optional `\+?` consumes a leading `+` exactly when one is present (group 1
keeps it, but `int(group(1).replace("+", ""))` discards it again). -/
def tryUnitsAt (l : Line) : Option Nat :=
  if l.head? = some '+' then tryUnitsCore l.tail else tryUnitsCore l

/-- Search for `_UNITS_RE`: try each start position left to right. -/
def unitsSearch (l : Line) : Option Nat :=
  match l with
  | [] => none
  | _ :: t =>
    match tryUnitsAt l with
    | some n => some n
    | none => unitsSearch t

/-- Model of `idc_pdf._parse_stock`.  (`int` never fails on the digit run the regex
delivers, so the `except ValueError` branch is dead.) -/
def _parse_stock (text : Line) : Option Nat :=
  if text.isEmpty then none else unitsSearch text

/-! ## Name cleaner (`_cleanup_name`) -/

/-- One pass of `re.sub(r"\s+", " ", ·)`: every maximal run of whitespace
characters is replaced by a single space. -/
def collapseWS : Line → Line
  | [] => []
  | [c] => [if isSpacePy c then ' ' else c]
  | c :: d :: rest =>
    if isSpacePy c && isSpacePy d then collapseWS (d :: rest)
    else (if isSpacePy c then ' ' else c) :: collapseWS (d :: rest)

/-- Core of `_cleanup_name` on character lists: strip, then collapse
whitespace runs. -/
def cleanupL (l : Line) : Line :=
  collapseWS (stripWS l)

/-- Model of `idc_pdf._cleanup_name`: the argument may be `None` (`name or ""`),
then strip and collapse whitespace. -/
def _cleanup_name (name : Option String) : String :=
  String.mk (cleanupL ((name.getD "").data))

/-! ## Inline price extraction (`_extract_prices_from_line`)

`re.finditer(r"\$\s*([0-9\.\,]+)\s*\+\s*iva", text, re.IGNORECASE)`.
At a fixed start the match is deterministic: after the literal `$`, the
greedy `\s*` must take the whole whitespace run (a shorter take leaves a
whitespace character where `[0-9.,]` is required), the greedy `[0-9.,]+`
must take the whole run (a shorter take leaves a `[0-9.,]` character,
which is neither whitespace nor `+`), and likewise for the remaining
`\s*` pieces.  `finditer` scans start positions left to right and resumes
after the end of each match.  The recursion is bounded by the line length
(`fuel`), which every step strictly decreases the remaining input under,
so the fuel never runs out. -/

/-- Match `\s*([0-9\.\,]+)\s*\+\s*iva` (case-insensitive) at the start of
`rest` (the part after a literal `$`); return group 1 and the input
remaining after the match. -/
def tryPriceAfterDollar (rest : Line) : Option (Line × Line) :=
  let r1 := rest.dropWhile isSpacePy
  let run := r1.takeWhile isPriceChar
  if run.isEmpty then none
  else
    match (r1.dropWhile isPriceChar).dropWhile isSpacePy with
    | '+' :: r3 =>
      match r3.dropWhile isSpacePy with
      | a :: b :: c :: r5 =>
        if a.toLower = 'i' && b.toLower = 'v' && c.toLower = 'a' then some (run, r5)
        else none
      | _ => none
    | _ => none

/-- Left-to-right scan underlying `finditer`; on a match the scan resumes
after the match (matches are non-overlapping). -/
def extractPricesAux : Nat → Line → List Line
  | 0, _ => []
  | _, [] => []
  | fuel + 1, c :: rest =>
    if c = '$' then
      match tryPriceAfterDollar rest with
      | some (run, rem) => ('$' :: run) :: extractPricesAux fuel rem
      | none => extractPricesAux fuel rest
    else extractPricesAux fuel rest

/-- Model of `idc_pdf._extract_prices_from_line`: each match contributes the string
`"$" + group(1)`, in order of appearance. -/
def extractPrices (l : Line) : List Line :=
  extractPricesAux l.length l

/-! ## Record-opening pattern (`_SKU_INLINE_RE`)

`^(\d{6})\s+(.+)$`, used via `.match` on the stripped line.  `\d{6}` is a
fixed count, so a five-digit leading run fails (the sixth character is not
a digit) and a seven-digit run fails too (the seventh character is a
digit, never whitespace).  Greedy `\s+` takes the whole whitespace run and
`(.+)$` the rest; the only backtracking case is a line whose tail is all
whitespace of length ≥ 2, where `\s+` gives one character back to `.+`
(this case is unreachable on stripped lines but modelled for fidelity). -/

/-- Model of `_SKU_INLINE_RE.match`: on success, groups 1 (the six digits) and 2
(the text after the whitespace run). -/
def skuInlineMatch (l : Line) : Option (Line × Line) :=
  match l with
  | d1 :: d2 :: d3 :: d4 :: d5 :: d6 :: rest =>
    if isDigitChar d1 && isDigitChar d2 && isDigitChar d3 &&
       isDigitChar d4 && isDigitChar d5 && isDigitChar d6 then
      match rest with
      | c :: _ =>
        if isSpacePy c then
          match rest.dropWhile isSpacePy with
          | [] =>
            match rest with
            | _ :: _ :: _ =>
              match rest.getLast? with
              | some z => some ([d1, d2, d3, d4, d5, d6], [z])
              | none => none
            | _ => none
          | r :: rs => some ([d1, d2, d3, d4, d5, d6], r :: rs)
        else none
      | [] => none
    else none
  | _ => none

/-- Length of the leading ASCII digit run of a line. -/
def countLeadingDigits (l : Line) : Nat :=
  (l.takeWhile isDigitChar).length

/-! ## Line classifier and row reconstructor (`_extract_rows_from_text`) -/

/-- The raw tuple `(sku, name, x1, x3, x6, stock_text, eta_text)`. -/
structure RawRow where
  sku : Line
  name : Line
  x1 : Line
  x3 : Line
  x6 : Line
  stockText : Line
  etaText : Line
deriving DecidableEq, Repr

/-- Mutable scan state of the while loop: `name_buffer`, `in_continuation`
and the accumulated `rows`. -/
structure ScanState where
  nameBuffer : List Line
  inContinuation : Bool
  rows : List RawRow
deriving DecidableEq, Repr

def initState : ScanState := ⟨[], false, []⟩

/-- The fixed `product_keywords` list of the continuation branch. -/
def productKeywords : List Line :=
  (["Laptop", "Monitor", "Nas", "Pc", "Aio", "Celular", "Central",
    "Generador", "Impresora", "Scanner", "Tablet", "Desktop", "Server",
    "Router", "Switch", "Firewall", "Access", "Camera", "Webcam",
    "Teclado", "Mouse", "Audifonos", "Parlante", "Microfono", "Disco",
    "Ssd", "Ram", "Memoria", "Procesador", "Tarjeta", "Cable",
    "Adaptador", "Hub", "Dock", "Fuente", "UPS", "Bateria", "Pantalla",
    "Proyector", "Tv", "Smart"] : List String).map String.data

/-- The header/footer/banner filter at the top of the loop body: blank
line, table header labels, footer phrase, promotional word, briefcase
glyph, bullet glyph. -/
def isNoise (line : Line) : Bool :=
  line.isEmpty ||
  containsSub ("SKU IDC".data) line ||
  containsSub ("NOMBRE DEL PRODUCTO".data) line ||
  containsSub ("FORMAS DE PAGO".data) line ||
  ("Gratis".data).isPrefixOf line ||
  ("💼".data).isPrefixOf line ||
  ("•".data).isPrefixOf line

/-- Guard of the record-opening branch: `sku_match and "$" in line`. -/
def recordGuard (line : Line) : Bool :=
  (skuInlineMatch line).isSome && line.contains '$'

/-- A stripped line that actually opens a record: it passes the noise
filter and the record-opening guard. -/
def recordOpens (line : Line) : Bool :=
  !isNoise line && recordGuard line

/-- The tuple emitted by the record-opening branch, given the current name
buffer, the stripped line and the two groups of the SKU match. -/
def mkRow (nameBuffer : List Line) (line sku rest : Line) : RawRow :=
  let prices := extractPrices line
  let nameParts :=
    if rest.contains '$' then
      let beforePrice := stripWS (rest.takeWhile (fun c => c ≠ '$'))
      if beforePrice.isEmpty then nameBuffer else nameBuffer ++ [beforePrice]
    else nameBuffer ++ [rest]
  { sku := sku
    name := cleanupL (List.intercalate [' '] nameParts)
    x1 := prices.getD 0 []
    x3 := prices.getD 1 []
    x6 := prices.getD 2 []
    stockText := line
    etaText := line }

/-- The record-opening branch: emit one tuple, clear the buffer, enter
continuation mode. -/
def recordStep (s : ScanState) (line : Line) : ScanState :=
  match skuInlineMatch line with
  | some (sku, rest) =>
    ⟨[], true, s.rows ++ [mkRow s.nameBuffer line sku rest]⟩
  | none => s

/-- One iteration of the loop body on the stripped line, without the index
bookkeeping. -/
def stepState (s : ScanState) (raw : Line) : ScanState :=
  let line := stripWS raw
  if isNoise line then ⟨[], false, s.rows⟩
  else if recordGuard line then recordStep s line
  else if s.inContinuation then
    if productKeywords.any (fun k => k.isPrefixOf line) then
      ⟨s.nameBuffer ++ [line], false, s.rows⟩
    else if line.contains '$' then s
    else s
  else
    if line.contains '$' then s
    else ⟨s.nameBuffer ++ [line], s.inContinuation, s.rows⟩

/-- One iteration of the loop body with the loop index, mirroring the
source branch by branch: every branch ends in `i += 1`. -/
def stepIdx (s : ScanState) (raw : Line) (i : Nat) : ScanState × Nat :=
  let line := stripWS raw
  if isNoise line then (⟨[], false, s.rows⟩, i + 1)
  else if recordGuard line then (recordStep s line, i + 1)
  else if s.inContinuation then
    if productKeywords.any (fun k => k.isPrefixOf line) then
      (⟨s.nameBuffer ++ [line], false, s.rows⟩, i + 1)
    else if line.contains '$' then (s, i + 1)
    else (s, i + 1)
  else
    if line.contains '$' then (s, i + 1)
    else (⟨s.nameBuffer ++ [line], s.inContinuation, s.rows⟩, i + 1)

/-- The `while i < n` loop with its explicit index. -/
def scanLoop (lines : List Line) (i : Nat) (s : ScanState) : ScanState :=
  if h : i < lines.length then
    scanLoop lines (i + 1) (stepState s (lines.get ⟨i, h⟩))
  else s
termination_by lines.length - i
decreasing_by omega

/-- Number of loop iterations performed from index `i`. -/
def scanCount (lines : List Line) (i : Nat) (s : ScanState) : Nat :=
  if h : i < lines.length then
    1 + scanCount lines (i + 1) (stepState s (lines.get ⟨i, h⟩))
  else 0
termination_by lines.length - i
decreasing_by omega

/-- Model of `idc_pdf._extract_rows_from_text`: the single forward pass, expressed
as a fold of the loop body over the lines (the equivalence with `scanLoop`
is proved below). -/
def extract_rows_from_text (lines : List Line) : List RawRow :=
  (lines.foldl stepState initState).rows

/-- Price-tier projection of a raw tuple. -/
def tiersProj (r : RawRow) : Line × Line × Line :=
  (r.x1, r.x3, r.x6)

/-- Price tiers a record-opening line produces: the price matches in order
of appearance, assigned positionally, extras dropped, missing tiers empty. -/
def tiersOf (line : Line) : Line × Line × Line :=
  ((extractPrices line).getD 0 [], (extractPrices line).getD 1 [],
   (extractPrices line).getD 2 [])

/-- The record-opening pattern exactly as claim C1 words it: a line
starting with exactly six digits, then whitespace, then text containing a
`$` — with no reference to the noise filter. -/
def claimRecordOpening (line : Line) : Bool :=
  (skuInlineMatch line).isSome && line.contains '$'

/-! ## Provider registry (`registry.py`) -/

/-- First-match association lookup; on the unique-key association lists
that model a Python dict this is exactly `REGISTRY[name]`. -/
def lookupA {α : Type} : List (String × α) → String → Option α
  | [], _ => none
  | (k, v) :: t, n => if k = n then some v else lookupA t n

/-- The apostrophe character, written via its code point. -/
def aposQ : String := (Char.ofNat 39).toString

/-- Python `repr` of a list of plain identifier-like strings, as
`f"{list(REGISTRY.keys())}"` renders it. -/
def pyListRepr (keys : List String) : String :=
  "[" ++ String.intercalate (", ") (keys.map (fun k => aposQ ++ k ++ aposQ)) ++ "]"

/-- The `ValueError` message of `get_provider`. -/
def noRegistradoMsg (name : String) (keys : List String) : String :=
  "Proveedor no registrado: " ++ name ++ ". Disponibles: " ++ pyListRepr keys

/-- Model of `registry.get_provider` over an explicit registry value: the looked-up
function, or the descriptive error. -/
def get_provider {α : Type} (reg : List (String × α)) (name : String) :
    Except String α :=
  match lookupA reg name with
  | some f => Except.ok f
  | none => Except.error (noRegistradoMsg name (reg.map Prod.fst))

/-! ## Record assembler (`ingest_idc_pdf`, post-extraction part) -/

/-- A cell of the normalized record set. -/
inductive Cell where
  | str : String → Cell
  | num : ℚ → Cell
  | int : Nat → Cell
  | null : Cell
deriving DecidableEq, Repr

/-- A tabular result: ordered column names and rows of cells (one cell per
column, in column order). -/
structure Table where
  columns : List String
  rows : List (List Cell)
deriving DecidableEq, Repr

/-- Modelled from the spec: `STANDARD_COLUMNS` is imported from
`src/core/schema.py`, which is not part of the sources; §6 of the
specification fixes the canonical column order, which this list follows
verbatim. -/
def STANDARD_COLUMNS : List String :=
  ["supplier", "supplier_sku", "title", "brand", "model", "ean_upc",
   "category", "condition", "cost_x1_usd", "cost_x3_usd", "cost_x6_usd",
   "tax_included", "stock", "eta_text", "source_file"]

/-- The per-row dict built in `ingest_idc_pdf`, with its keys laid out in
the canonical column order (the order the source lists them in). -/
def assembleRow (supplier fileName : String) (r : RawRow) : List Cell :=
  [Cell.str supplier,
   Cell.str (String.mk r.sku),
   Cell.str (String.mk r.name),
   Cell.null, Cell.null, Cell.null, Cell.null, Cell.null,
   (match _parse_price_to_float r.x1 with | some q => Cell.num q | none => Cell.null),
   (match _parse_price_to_float r.x3 with | some q => Cell.num q | none => Cell.null),
   (match _parse_price_to_float r.x6 with | some q => Cell.num q | none => Cell.null),
   Cell.str ("no"),
   (match _parse_stock r.stockText with | some n => Cell.int n | none => Cell.null),
   (if r.etaText.isEmpty then Cell.null else Cell.str (String.mk (stripWS r.etaText))),
   Cell.str fileName]

/-- Model of `ingest_idc_pdf` from the flattened line list onward (the PDF text
extraction is the external input collaborator; `p.name` is passed in as
`fileName`).  An empty row list yields the empty frame constructed with
`STANDARD_COLUMNS`; in both cases the final `df[STANDARD_COLUMNS]` leaves
the columns in canonical order. -/
def ingest_idc_pdf_lines (lines : List Line) (supplier fileName : String) :
    Table :=
  let raw := extract_rows_from_text lines
  { columns := STANDARD_COLUMNS
    rows := raw.map (assembleRow supplier fileName) }

/-- The shape claim C7 gives for cleaned names: whitespace characters in
the result are plain spaces, no two adjacent characters are both
whitespace (so every maximal whitespace run is a single space), and the
result neither starts nor ends with whitespace. -/
def wellSpaced (r : Line) : Prop :=
  (∀ c ∈ r, isSpacePy c = true → c = ' ') ∧
  List.Chain' (fun a b => ¬(isSpacePy a = true ∧ isSpacePy b = true)) r ∧
  (∀ c, r.head? = some c → isSpacePy c = false) ∧
  (∀ c, r.getLast? = some c → isSpacePy c = false)

theorem dropWhile_head_false (p : Char → Bool) :
    ∀ (l : Line) (c : Char), (l.dropWhile p).head? = some c → p c = false := by
  intro l
  induction l with
  | nil => intro c h; simp at h
  | cons a t ih =>
    intro c h
    rw [List.dropWhile_cons] at h
    split at h
    · exact ih c h
    · next hpa =>
      simp only [List.head?_cons, Option.some.injEq] at h
      subst h
      simpa using hpa

theorem stripWS_head (l : Line) (c : Char) (h : (stripWS l).head? = some c) :
    isSpacePy c = false := by
  have hpre : stripWS l <+: l.dropWhile isSpacePy := by
    have hs : (l.dropWhile isSpacePy).reverse.dropWhile isSpacePy
        <:+ (l.dropWhile isSpacePy).reverse := List.dropWhile_suffix _
    have := List.reverse_prefix.mpr hs
    simpa [stripWS] using this
  obtain ⟨t, ht⟩ := hpre
  have hY : (l.dropWhile isSpacePy).head? = some c := by
    cases hsl : stripWS l with
    | nil => rw [hsl] at h; simp at h
    | cons x xs =>
      rw [hsl] at h ht
      simp only [List.head?_cons, Option.some.injEq] at h
      rw [← ht, List.cons_append, List.head?_cons, h]
  exact dropWhile_head_false _ _ _ hY

theorem stripWS_last (l : Line) (c : Char) (h : (stripWS l).getLast? = some c) :
    isSpacePy c = false := by
  unfold stripWS at h
  rw [List.getLast?_reverse] at h
  exact dropWhile_head_false _ _ _ h

theorem dropWhile_eq_self_of_head (p : Char → Bool) (l : Line)
    (h : ∀ c, l.head? = some c → p c = false) : l.dropWhile p = l := by
  cases l with
  | nil => rfl
  | cons a t =>
    have := h a rfl
    simp [List.dropWhile_cons, this]

theorem stripWS_eq_self (l : Line)
    (hh : ∀ c, l.head? = some c → isSpacePy c = false)
    (hl : ∀ c, l.getLast? = some c → isSpacePy c = false) :
    stripWS l = l := by
  unfold stripWS
  rw [dropWhile_eq_self_of_head _ l hh]
  rw [dropWhile_eq_self_of_head _ l.reverse
    (by intro c hc; rw [List.head?_reverse] at hc; exact hl c hc)]
  exact List.reverse_reverse l

theorem collapseWS_cons (c : Char) (rest : Line) :
    ∃ t, collapseWS (c :: rest) = (if isSpacePy c then ' ' else c) :: t := by
  induction rest generalizing c with
  | nil => exact ⟨[], rfl⟩
  | cons d r ih =>
    by_cases hb : (isSpacePy c && isSpacePy d) = true
    · obtain ⟨t, ht⟩ := ih d
      refine ⟨t, ?_⟩
      have h1 : collapseWS (c :: d :: r) = collapseWS (d :: r) := by
        simp [collapseWS, hb]
      rw [h1, ht]
      rcases Bool.and_eq_true _ _ |>.mp hb with ⟨hc, hd⟩
      simp [hc, hd]
    · refine ⟨collapseWS (d :: r), ?_⟩
      have hb' : (isSpacePy c && isSpacePy d) = false := by
        rwa [Bool.not_eq_true] at hb
      simp [collapseWS, hb']

theorem collapseWS_all_space (l : Line) :
    ∀ c ∈ collapseWS l, isSpacePy c = true → c = ' ' := by
  induction l using collapseWS.induct with
  | case1 => simp [collapseWS]
  | case2 a =>
    intro c hc hsp
    simp only [collapseWS, List.mem_singleton] at hc
    by_cases ha : isSpacePy a = true
    · simp [ha] at hc; exact hc
    · simp [ha] at hc; subst hc; simp [ha] at hsp
  | case3 a d r hb ih =>
    intro c hc hsp
    rw [show collapseWS (a :: d :: r) = collapseWS (d :: r) from by
      simp [collapseWS, hb]] at hc
    exact ih c hc hsp
  | case4 a d r hb ih =>
    intro c hc hsp
    have hb' : (isSpacePy a && isSpacePy d) = false := by
      rwa [Bool.not_eq_true] at hb
    rw [show collapseWS (a :: d :: r) = (if isSpacePy a then ' ' else a) :: collapseWS (d :: r) from by
      simp [collapseWS, hb']] at hc
    rcases List.mem_cons.mp hc with hc | hc
    · by_cases ha : isSpacePy a = true
      · rw [hc]; simp [ha]
      · rw [hc] at hsp ⊢; simp [ha] at hsp
    · exact ih c hc hsp

theorem space_ite_space (a : Char) :
    isSpacePy (if isSpacePy a then ' ' else a) = isSpacePy a := by
  by_cases ha : isSpacePy a = true
  · rw [if_pos ha, ha]; rfl
  · rw [if_neg ha]

theorem collapseWS_chain (l : Line) :
    List.Chain' (fun a b => ¬(isSpacePy a = true ∧ isSpacePy b = true))
      (collapseWS l) := by
  induction l using collapseWS.induct with
  | case1 => simp [collapseWS]
  | case2 a => simp [collapseWS]
  | case3 a d r hb ih =>
    rw [show collapseWS (a :: d :: r) = collapseWS (d :: r) from by
      simp [collapseWS, hb]]
    exact ih
  | case4 a d r hb ih =>
    have hb' : (isSpacePy a && isSpacePy d) = false := by
      rwa [Bool.not_eq_true] at hb
    rw [show collapseWS (a :: d :: r) = (if isSpacePy a then ' ' else a) :: collapseWS (d :: r) from by
      simp [collapseWS, hb']]
    obtain ⟨t, ht⟩ := collapseWS_cons d r
    rw [ht]
    rw [List.chain'_cons]
    constructor
    · rw [space_ite_space, space_ite_space]
      intro ⟨h1, h2⟩
      rw [h1, h2] at hb'
      simp at hb'
    · rw [← ht]; exact ih

theorem collapseWS_getLast (l : Line) (c : Char) (hl : l.getLast? = some c)
    (hc : isSpacePy c = false) : (collapseWS l).getLast? = some c := by
  induction l using collapseWS.induct with
  | case1 => simp at hl
  | case2 a =>
    simp only [List.getLast?_singleton, Option.some.injEq] at hl
    subst hl
    simp [collapseWS, hc]
  | case3 a d r hb ih =>
    rw [show collapseWS (a :: d :: r) = collapseWS (d :: r) from by
      simp [collapseWS, hb]]
    exact ih (by rwa [List.getLast?_cons_cons] at hl)
  | case4 a d r hb ih =>
    have hb' : (isSpacePy a && isSpacePy d) = false := by
      rwa [Bool.not_eq_true] at hb
    rw [show collapseWS (a :: d :: r) = (if isSpacePy a then ' ' else a) :: collapseWS (d :: r) from by
      simp [collapseWS, hb']]
    obtain ⟨t, ht⟩ := collapseWS_cons d r
    rw [ht, List.getLast?_cons_cons, ← ht]
    exact ih (by rwa [List.getLast?_cons_cons] at hl)

theorem collapseWS_fixpoint (l : Line)
    (h1 : ∀ c ∈ l, isSpacePy c = true → c = ' ')
    (h2 : List.Chain' (fun a b => ¬(isSpacePy a = true ∧ isSpacePy b = true)) l) :
    collapseWS l = l := by
  induction l using collapseWS.induct with
  | case1 => rfl
  | case2 a =>
    by_cases ha : isSpacePy a = true
    · have := h1 a (by simp) ha
      simp [collapseWS, ha, this]
    · simp [collapseWS, ha]
  | case3 a d r hb ih =>
    rcases Bool.and_eq_true _ _ |>.mp hb with ⟨ha, hd⟩
    rw [List.chain'_cons] at h2
    exact absurd ⟨ha, hd⟩ h2.1
  | case4 a d r hb ih =>
    have hb' : (isSpacePy a && isSpacePy d) = false := by
      rwa [Bool.not_eq_true] at hb
    rw [show collapseWS (a :: d :: r) = (if isSpacePy a then ' ' else a) :: collapseWS (d :: r) from by
      simp [collapseWS, hb']]
    rw [List.chain'_cons] at h2
    rw [ih (fun c hc => h1 c (List.mem_cons_of_mem _ hc)) h2.2]
    by_cases ha : isSpacePy a = true
    · have haa := h1 a (by simp) ha
      rw [if_pos ha, haa]
    · rw [if_neg ha]

theorem cleanupL_wellSpaced (l : Line) : wellSpaced (cleanupL l) := by
  refine ⟨?_, ?_, ?_, ?_⟩
  · exact collapseWS_all_space _
  · exact collapseWS_chain _
  · intro c hc
    cases hs : stripWS l with
    | nil => rw [cleanupL, hs] at hc; simp [collapseWS] at hc
    | cons x xs =>
      obtain ⟨t, ht⟩ := collapseWS_cons x xs
      rw [cleanupL, hs, ht] at hc
      simp only [List.head?_cons, Option.some.injEq] at hc
      subst hc
      rw [space_ite_space]
      exact stripWS_head l x (by rw [hs]; rfl)
  · intro c hc
    cases hs : stripWS l with
    | nil => rw [cleanupL, hs] at hc; simp [collapseWS] at hc
    | cons x xs =>
      rw [cleanupL, hs] at hc
      -- last of stripWS l exists; call it z
      cases hz : (x :: xs).getLast? with
      | none => simp at hz
      | some z =>
        have hzs : isSpacePy z = false :=
          stripWS_last l z (by rw [hs]; exact hz)
        rw [collapseWS_getLast _ z hz hzs] at hc
        simp only [Option.some.injEq] at hc
        subst hc
        exact hzs

theorem cleanupL_idem (l : Line) : cleanupL (cleanupL l) = cleanupL l := by
  obtain ⟨h1, h2, h3, h4⟩ := cleanupL_wellSpaced l
  rw [cleanupL, stripWS_eq_self _ (fun c hc => h3 c hc) (fun c hc => h4 c hc)]
  exact collapseWS_fixpoint _ h1 h2

/-- Claim C7: the Name Cleaner maps a null input to the empty string, is
idempotent, and produces output in which every maximal whitespace run is a
single space with no leading or trailing whitespace. -/
theorem c7_name_cleaner :
    _cleanup_name none = "" ∧
    (∀ s : Option String, _cleanup_name (some (_cleanup_name s)) = _cleanup_name s) ∧
    (∀ s : Option String, wellSpaced (_cleanup_name s).data) := by
  refine ⟨rfl, ?_, ?_⟩
  · intro s
    show String.mk (cleanupL (String.mk (cleanupL ((s.getD "").data))).data)
        = String.mk (cleanupL ((s.getD "").data))
    exact congrArg String.mk (cleanupL_idem _)
  · intro s
    exact cleanupL_wellSpaced _

/-- Witness for C7: idempotence at a concrete messy name. -/
theorem c7_name_cleaner_witness :
    _cleanup_name (some (_cleanup_name (some ("  Notebook   HP
ProBook  ")))) = _cleanup_name (some ("  Notebook   HP
ProBook  ")) :=
  c7_name_cleaner.2.1 (some ("  Notebook   HP
ProBook  "))

/-- Claim C5: the Price Normalizer applies the spec's separator rule to
the first currency-like numeric substring (the refinement equation below),
and on the spec's concrete examples yields exactly the stated values. -/
theorem c5_price_normalizer :
    (∀ text : Line, _parse_price_to_float text =
      (priceSearchGroup text).bind (fun g => parseFloatQ (priceRuleSpec (stripWS g)))) ∧
    _parse_price_to_float ("$1.398,88 + iva".data) = some (1398.88 : ℚ) ∧
    _parse_price_to_float ("$138.22".data) = some (138.22 : ℚ) ∧
    _parse_price_to_float ("1398,88".data) = some (1398.88 : ℚ) ∧
    _parse_price_to_float ("".data) = none ∧
    _parse_price_to_float ("sin precio".data) = none := by
  refine ⟨?_, ?_, ?_, ?_, rfl, by decide⟩
  · intro text
    cases text with
    | nil => rfl
    | cons a t =>
      rw [_parse_price_to_float]
      simp only [List.isEmpty_cons, if_false, Bool.false_eq_true]
      cases hg : priceSearchGroup (a :: t) with
      | none => rfl
      | some g =>
        simp only [Option.some_bind, priceRuleSpec]
        by_cases h1 : ((stripWS g).contains ',' && (stripWS g).contains '.') = true
        · simp only [h1, if_true]
        · simp only [h1, if_false, Bool.false_eq_true]
          by_cases h2 : (stripWS g).contains ',' = true
          · simp only [h2, if_true]
          · simp only [h2, if_false, Bool.false_eq_true]
  · have e : _parse_price_to_float ("$1.398,88 + iva".data)
        = some ((1398 : ℚ) + (88 : ℚ) / 10 ^ 2) := rfl
    rw [e]; norm_num
  · have e : _parse_price_to_float ("$138.22".data)
        = some ((138 : ℚ) + (22 : ℚ) / 10 ^ 2) := rfl
    rw [e]; norm_num
  · have e : _parse_price_to_float ("1398,88".data)
        = some ((1398 : ℚ) + (88 : ℚ) / 10 ^ 2) := rfl
    rw [e]; norm_num

theorem tryUnitsCore_sound (t : Line) (n : Nat) (h : tryUnitsCore t = some n) :
    ∃ ds sp r, t = ds ++ sp ++ r ∧ ds ≠ [] ∧
      (∀ c ∈ ds, isDigitChar c = true) ∧ (∀ c ∈ sp, isSpacePy c = true) ∧
      ciHasPrefix ("UNIDADES".data) r = true ∧ digitsToNat ds = n := by
  unfold tryUnitsCore at h
  by_cases he : (t.takeWhile isDigitChar).isEmpty = true
  · simp [he] at h
  · simp only [he, if_false, Bool.false_eq_true] at h
    by_cases hp : ciHasPrefix ("UNIDADES".data)
        ((t.dropWhile isDigitChar).dropWhile isSpacePy) = true
    · simp only [hp, if_true, Option.some.injEq] at h
      refine ⟨t.takeWhile isDigitChar,
        (t.dropWhile isDigitChar).takeWhile isSpacePy,
        (t.dropWhile isDigitChar).dropWhile isSpacePy, ?_, ?_, ?_, ?_, hp, h⟩
      · simp [List.takeWhile_append_dropWhile]
      · intro hnil; rw [hnil] at he; simp at he
      · intro c hc; exact List.mem_takeWhile_imp hc
      · intro c hc; exact List.mem_takeWhile_imp hc
    · simp [hp] at h

theorem unitsSearch_sound (l : Line) (n : Nat) (h : unitsSearch l = some n) :
    ∃ pre t, l = pre ++ t ∧ tryUnitsAt t = some n := by
  induction l with
  | nil => simp [unitsSearch] at h
  | cons a rest ih =>
    rw [unitsSearch] at h
    split at h
    · next m heq =>
      cases h
      exact ⟨[], a :: rest, rfl, heq⟩
    · next heq =>
      obtain ⟨pre, t, hsplit, hat⟩ := ih h
      exact ⟨a :: pre, t, by simp [hsplit], hat⟩

/-- Claim C6: whenever the Stock Normalizer returns a value, the input
decomposes as arbitrary prefix text, an optional `+` (discarded), the
digit run whose value is returned, optional whitespace, and the
case-insensitive unit marker `UNIDADES` (the source-locale word behind the
spec's "UNITS" marker) followed by arbitrary text; and the spec's concrete
examples evaluate as stated. -/
theorem c6_stock_normalizer :
    (∀ (l : Line) (n : Nat), _parse_stock l = some n →
      ∃ pre plus ds sp r, l = pre ++ plus ++ ds ++ sp ++ r ∧
        (plus = [] ∨ plus = ['+']) ∧ ds ≠ [] ∧
        (∀ c ∈ ds, isDigitChar c = true) ∧ (∀ c ∈ sp, isSpacePy c = true) ∧
        ciHasPrefix ("UNIDADES".data) r = true ∧ digitsToNat ds = n) ∧
    _parse_stock ("10 UNIDADES".data) = some 10 ∧
    _parse_stock ("+50 UNIDADES".data) = some 50 ∧
    _parse_stock ("25 unidades".data) = some 25 ∧
    _parse_stock ("Stock: 100 UNIDADES disponibles".data) = some 100 ∧
    _parse_stock ("sin stock".data) = none := by
  refine ⟨?_, by decide, by decide, by decide, by decide, by decide⟩
  intro l n h
  rw [_parse_stock] at h
  by_cases hne : l.isEmpty = true
  · simp [hne] at h
  · simp only [hne, if_false, Bool.false_eq_true] at h
    obtain ⟨pre, t, hsplit, hat⟩ := unitsSearch_sound l n h
    rw [tryUnitsAt] at hat
    by_cases hh : t.head? = some '+'
    · rw [if_pos hh] at hat
      obtain ⟨ds, sp, r, htail, hds, hdig, hsp, hpfx, hval⟩ :=
        tryUnitsCore_sound t.tail n hat
      have ht : t = '+' :: t.tail := by
        cases t with
        | nil => simp at hh
        | cons c ts =>
          simp only [List.head?_cons, Option.some.injEq] at hh
          rw [hh]; rfl
      refine ⟨pre, ['+'], ds, sp, r, ?_, Or.inr rfl, hds, hdig, hsp, hpfx, hval⟩
      rw [hsplit, ht, htail]
      simp
    · rw [if_neg hh] at hat
      obtain ⟨ds, sp, r, htail, hds, hdig, hsp, hpfx, hval⟩ :=
        tryUnitsCore_sound t n hat
      refine ⟨pre, [], ds, sp, r, ?_, Or.inl rfl, hds, hdig, hsp, hpfx, hval⟩
      rw [hsplit, htail]
      simp

/-- Witness for C6: the soundness decomposition at `"10 UNIDADES"`. -/
theorem c6_stock_normalizer_witness :
    ∃ pre plus ds sp r, ("10 UNIDADES".data : Line) = pre ++ plus ++ ds ++ sp ++ r ∧
      (plus = [] ∨ plus = ['+']) ∧ ds ≠ [] ∧
      (∀ c ∈ ds, isDigitChar c = true) ∧ (∀ c ∈ sp, isSpacePy c = true) ∧
      ciHasPrefix ("UNIDADES".data) r = true ∧ digitsToNat ds = 10 :=
  c6_stock_normalizer.1 ("10 UNIDADES".data) 10 (by decide)

theorem stepState_noise (s : ScanState) (raw : Line)
    (h : isNoise (stripWS raw) = true) :
    stepState s raw = ⟨[], false, s.rows⟩ := by
  simp [stepState, h]

theorem recordStep_eq (s : ScanState) (line sku rest : Line)
    (h : skuInlineMatch line = some (sku, rest)) :
    recordStep s line = ⟨[], true, s.rows ++ [mkRow s.nameBuffer line sku rest]⟩ := by
  simp [recordStep, h]

theorem stepState_record (s : ScanState) (raw : Line)
    (hn : isNoise (stripWS raw) = false)
    (hg : recordGuard (stripWS raw) = true) :
    stepState s raw = recordStep s (stripWS raw) := by
  simp [stepState, hn, hg]

theorem stepState_other_rows (s : ScanState) (raw : Line)
    (hn : isNoise (stripWS raw) = false)
    (hg : recordGuard (stripWS raw) = false) :
    (stepState s raw).rows = s.rows := by
  simp only [stepState, hn, hg, Bool.false_eq_true, if_false]
  repeat' split
  all_goals rfl

theorem not_digit_of_space (c : Char) (h : isSpacePy c = true) :
    isDigitChar c = false := by
  simp only [isSpacePy, Bool.or_eq_true, decide_eq_true_eq] at h
  rcases h with ((((h | h) | h) | h) | h) | h <;> subst h <;> rfl

theorem skuInlineMatch_count : ∀ (l sku rest : Line),
    skuInlineMatch l = some (sku, rest) → countLeadingDigits l = 6
  | [], _, _, h => nomatch h
  | [_], _, _, h => nomatch h
  | [_, _], _, _, h => nomatch h
  | [_, _, _], _, _, h => nomatch h
  | [_, _, _, _], _, _, h => nomatch h
  | [_, _, _, _, _], _, _, h => nomatch h
  | d1 :: d2 :: d3 :: d4 :: d5 :: d6 :: rest', sku, rest, h => by
    simp only [skuInlineMatch] at h
    by_cases hdig : (isDigitChar d1 && isDigitChar d2 && isDigitChar d3 &&
        isDigitChar d4 && isDigitChar d5 && isDigitChar d6) = true
    · have hd := hdig
      simp only [Bool.and_eq_true] at hd
      obtain ⟨⟨⟨⟨⟨h1, h2⟩, h3⟩, h4⟩, h5⟩, h6⟩ := hd
      cases rest' with
      | nil => simp [hdig] at h
      | cons c cs =>
        by_cases hc : isSpacePy c = true
        · rw [countLeadingDigits]
          simp [List.takeWhile_cons, h1, h2, h3, h4, h5, h6,
            not_digit_of_space c hc]
        · have hcf : isSpacePy c = false := by rwa [Bool.not_eq_true] at hc
          simp [hdig, hcf] at h
    · have hdf : (isDigitChar d1 && isDigitChar d2 && isDigitChar d3 &&
          isDigitChar d4 && isDigitChar d5 && isDigitChar d6) = false := by
        rwa [Bool.not_eq_true] at hdig
      simp [hdf] at h

/-- Claim C2: a record is opened only when the trimmed line literally
starts with exactly six digits followed by whitespace and further text and
contains a currency marker; a five-digit or at-least-seven-digit leading
run never opens a record. -/
theorem c2_six_digit_rule :
    ∀ (s : ScanState) (raw : Line),
      ((stepState s raw).rows ≠ s.rows →
        (skuInlineMatch (stripWS raw)).isSome = true ∧
        countLeadingDigits (stripWS raw) = 6 ∧
        (stripWS raw).contains '$' = true) ∧
      ((countLeadingDigits (stripWS raw) = 5 ∨ 7 ≤ countLeadingDigits (stripWS raw)) →
        (stepState s raw).rows = s.rows) := by
  intro s raw
  constructor
  · intro hne
    by_cases hn : isNoise (stripWS raw) = true
    · rw [stepState_noise s raw hn] at hne
      exact absurd rfl hne
    · have hn' : isNoise (stripWS raw) = false := by rwa [Bool.not_eq_true] at hn
      by_cases hg : recordGuard (stripWS raw) = true
      · have hg' := hg
        rw [recordGuard, Bool.and_eq_true] at hg'
        obtain ⟨hs, hc⟩ := hg'
        refine ⟨hs, ?_, hc⟩
        obtain ⟨⟨sku, rest⟩, hm⟩ := Option.isSome_iff_exists.mp hs
        exact skuInlineMatch_count _ sku rest hm
      · have hg' : recordGuard (stripWS raw) = false := by rwa [Bool.not_eq_true] at hg
        exact absurd (stepState_other_rows s raw hn' hg') hne
  · intro hcount
    by_cases hn : isNoise (stripWS raw) = true
    · rw [stepState_noise s raw hn]
    · have hn' : isNoise (stripWS raw) = false := by rwa [Bool.not_eq_true] at hn
      have hsk : skuInlineMatch (stripWS raw) = none := by
        cases hq : skuInlineMatch (stripWS raw) with
        | none => rfl
        | some p =>
          obtain ⟨sku, rest⟩ := p
          have h6 := skuInlineMatch_count _ sku rest hq
          rcases hcount with h5 | h7 <;> omega
      have hg : recordGuard (stripWS raw) = false := by
        simp [recordGuard, hsk]
      exact stepState_other_rows s raw hn' hg

/-- Witness for C2: a seven-digit leading run opens no record even with a
well-formed price tail. -/
theorem c2_six_digit_rule_witness :
    7 ≤ countLeadingDigits (stripWS ("1234567 Laptop $1,00 + iva".data)) ∧
    (stepState initState ("1234567 Laptop $1,00 + iva".data)).rows = initState.rows :=
  ⟨by decide, (c2_six_digit_rule initState _).2 (Or.inr (by decide))⟩

/-- Claim C3: a noise line is discarded, clears the name buffer and clears
continuation mode; and the only strings ever pushed into the name buffer
are stripped non-noise lines, so no fragment of a noise line reaches any
emitted name. -/
theorem c3_noise_resets :
    ∀ (s : ScanState) (raw : Line),
      (isNoise (stripWS raw) = true → stepState s raw = ⟨[], false, s.rows⟩) ∧
      (∀ b ∈ (stepState s raw).nameBuffer,
        b ∈ s.nameBuffer ∨ (b = stripWS raw ∧ isNoise (stripWS raw) = false)) := by
  intro s raw
  refine ⟨stepState_noise s raw, ?_⟩
  intro b hb
  by_cases hn : isNoise (stripWS raw) = true
  · rw [stepState_noise s raw hn] at hb
    simp at hb
  · have hn' : isNoise (stripWS raw) = false := by rwa [Bool.not_eq_true] at hn
    by_cases hg : recordGuard (stripWS raw) = true
    · obtain ⟨⟨sku, rest⟩, hm⟩ := Option.isSome_iff_exists.mp
        (Bool.and_eq_true _ _ |>.mp hg).1
      rw [stepState_record s raw hn' hg, recordStep_eq s _ sku rest hm] at hb
      simp at hb
    · have hg' : recordGuard (stripWS raw) = false := by rwa [Bool.not_eq_true] at hg
      simp only [stepState, hn', hg', Bool.false_eq_true, if_false] at hb
      split at hb
      · split at hb
        · rcases List.mem_append.mp hb with hb | hb
          · exact Or.inl hb
          · simp only [List.mem_singleton] at hb
            exact Or.inr ⟨hb, hn'⟩
        · split at hb
          · exact Or.inl hb
          · exact Or.inl hb
      · split at hb
        · exact Or.inl hb
        · rcases List.mem_append.mp hb with hb | hb
          · exact Or.inl hb
          · simp only [List.mem_singleton] at hb
            exact Or.inr ⟨hb, hn'⟩

/-- Witness for C3: the footer phrase resets the scanner state. -/
theorem c3_noise_resets_witness :
    stepState initState ("FORMAS DE PAGO: Efectivo, Tarjeta".data) = ⟨[], false, []⟩ :=
  (c3_noise_resets initState _).1 (by decide)

/-- Claim C4: every record-opening line emits a tuple whose `stock_text`
and `eta_text` are both the full stripped line. -/
theorem c4_stock_eta_full_line :
    ∀ (s : ScanState) (raw : Line),
      isNoise (stripWS raw) = false → recordGuard (stripWS raw) = true →
      ∃ r, (stepState s raw).rows = s.rows ++ [r] ∧
        r.stockText = stripWS raw ∧ r.etaText = stripWS raw := by
  intro s raw hn hg
  obtain ⟨⟨sku, rest⟩, hm⟩ := Option.isSome_iff_exists.mp
    (Bool.and_eq_true _ _ |>.mp hg).1
  rw [stepState_record s raw hn hg, recordStep_eq s _ sku rest hm]
  exact ⟨mkRow s.nameBuffer (stripWS raw) sku rest, rfl, rfl, rfl⟩

/-- Witness for C4: the stock and ETA fields of a concrete record line. -/
theorem c4_stock_eta_full_line_witness :
    ∃ r, (stepState initState ("123456 Producto $1,00 + iva 10 UNIDADES".data)).rows
        = initState.rows ++ [r] ∧
      r.stockText = stripWS ("123456 Producto $1,00 + iva 10 UNIDADES".data) ∧
      r.etaText = stripWS ("123456 Producto $1,00 + iva 10 UNIDADES".data) :=
  c4_stock_eta_full_line initState _ (by decide) (by decide)

theorem tiersProj_mkRow (buf : List Line) (line sku rest : Line) :
    tiersProj (mkRow buf line sku rest) = tiersOf line := rfl

theorem rows_tiers_fold (lines : List Line) :
    ∀ s : ScanState,
      ((lines.foldl stepState s).rows).map tiersProj
        = s.rows.map tiersProj
          ++ ((lines.map stripWS).filter recordOpens).map tiersOf := by
  induction lines with
  | nil => intro s; simp
  | cons a t ih =>
    intro s
    simp only [List.foldl_cons, List.map_cons, List.filter_cons]
    rw [ih]
    by_cases hn : isNoise (stripWS a) = true
    · have ho : recordOpens (stripWS a) = false := by simp [recordOpens, hn]
      rw [ho, stepState_noise s a hn]
      simp
    · have hn' : isNoise (stripWS a) = false := by rwa [Bool.not_eq_true] at hn
      by_cases hg : recordGuard (stripWS a) = true
      · have ho : recordOpens (stripWS a) = true := by
          simp [recordOpens, hn', hg]
        obtain ⟨⟨sku, rest⟩, hm⟩ := Option.isSome_iff_exists.mp
          (Bool.and_eq_true _ _ |>.mp hg).1
        rw [ho, stepState_record s a hn' hg, recordStep_eq s _ sku rest hm]
        simp [tiersProj_mkRow]
      · have hg' : recordGuard (stripWS a) = false := by rwa [Bool.not_eq_true] at hg
        have ho : recordOpens (stripWS a) = false := by
          simp [recordOpens, hg']
        rw [ho, stepState_other_rows s a hn' hg']
        simp

/-- Claim C1, amended: for every line sequence, the price tiers of the
emitted tuples correspond one-to-one, in order, to the non-noise
record-opening lines, and each tuple's tiers are the line's price-pattern
matches assigned positionally (extras dropped, missing tiers empty). -/
theorem c1_price_tiers (lines : List Line) :
    (extract_rows_from_text lines).map tiersProj
      = ((lines.map stripWS).filter recordOpens).map tiersOf := by
  have h := rows_tiers_fold lines initState
  simpa [extract_rows_from_text, initState] using h

/-- Claim C1, as stated, is refuted: this line starts with exactly six
digits, then whitespace, then text containing a currency marker — the
claim's record-opening pattern — yet it contains the footer phrase, so the
scan classifies it as noise and emits no tuple at all. -/
theorem c1_price_tiers_counterexample :
    claimRecordOpening (stripWS ("123456 FORMAS DE PAGO $1,00 + iva".data)) = true ∧
    extract_rows_from_text [("123456 FORMAS DE PAGO $1,00 + iva".data)] = [] := by
  exact ⟨by decide, rfl⟩

/-- Witness for C1: the tier correspondence evaluated on the end-to-end
scenario of the specification. -/
theorem c1_price_tiers_witness :
    (extract_rows_from_text
      [("Laptop Notebook HP ProBook 450 G8".data),
       ("Core i5 8GB RAM 256GB SSD".data),
       ("123456 Extra Specs $1.200,00 + iva $1.150,00 + iva $1.100,00 + iva 50 UNIDADES En stock".data)]).map tiersProj
      = [("$1.200,00".data, "$1.150,00".data, "$1.100,00".data)] :=
  (c1_price_tiers _).trans (by decide)

theorem extract_nil_of_no_records (lines : List Line)
    (h : ∀ l ∈ lines, recordOpens (stripWS l) = false) :
    extract_rows_from_text lines = [] := by
  have hf : (lines.map stripWS).filter recordOpens = [] := by
    rw [List.filter_eq_nil_iff]
    intro a ha
    rw [List.mem_map] at ha
    obtain ⟨l, hl, rfl⟩ := ha
    simp [h l hl]
  have hm : (extract_rows_from_text lines).map tiersProj = [] := by
    have h2 := rows_tiers_fold lines initState
    simpa [extract_rows_from_text, initState, hf] using h2
  exact List.map_eq_nil_iff.mp hm

/-- Claim C8: when no line opens a record (empty input, or noise and
unmatched lines only), the result is a zero-row table that still carries
exactly the 15 canonical columns in canonical order. -/
theorem c8_empty_result (lines : List Line) (supplier fileName : String)
    (h : ∀ l ∈ lines, recordOpens (stripWS l) = false) :
    ingest_idc_pdf_lines lines supplier fileName =
      { columns := ["supplier", "supplier_sku", "title", "brand", "model",
                    "ean_upc", "category", "condition", "cost_x1_usd",
                    "cost_x3_usd", "cost_x6_usd", "tax_included", "stock",
                    "eta_text", "source_file"],
        rows := [] } := by
  rw [ingest_idc_pdf_lines, extract_nil_of_no_records lines h]
  rfl

/-- Witness for C8: a fully-noise document yields the canonical empty
table. -/
theorem c8_empty_result_witness :
    ingest_idc_pdf_lines
        [("SKU IDC".data), ("Sin datos válidos".data), ("".data)] ("IDC") ("empty.pdf")
      = { columns := ["supplier", "supplier_sku", "title", "brand", "model",
                      "ean_upc", "category", "condition", "cost_x1_usd",
                      "cost_x3_usd", "cost_x6_usd", "tax_included", "stock",
                      "eta_text", "source_file"],
          rows := [] } :=
  c8_empty_result _ ("IDC") ("empty.pdf") (by decide)

theorem lookupA_none_iff {α : Type} (reg : List (String × α)) (name : String) :
    lookupA reg name = none ↔ name ∉ reg.map Prod.fst := by
  induction reg with
  | nil => simp [lookupA]
  | cons p t ih =>
    obtain ⟨k, v⟩ := p
    by_cases hk : k = name
    · subst hk
      simp [lookupA]
    · simp only [lookupA, hk, if_false, List.map_cons, List.mem_cons]
      rw [ih]
      constructor
      · intro hno
        intro hmem
        rcases hmem with hmem | hmem
        · exact hk hmem.symm
        · exact hno hmem
      · intro hno hmem
        exact hno (Or.inr hmem)

theorem lookupA_mem {α : Type} (reg : List (String × α)) (name : String)
    (f : α) (h : lookupA reg name = some f) : (name, f) ∈ reg := by
  induction reg with
  | nil => simp [lookupA] at h
  | cons p t ih =>
    obtain ⟨k, v⟩ := p
    rw [lookupA] at h
    by_cases hk : k = name
    · rw [if_pos hk] at h
      cases h
      subst hk
      exact List.mem_cons_self _ _
    · rw [if_neg hk] at h
      exact List.mem_cons_of_mem _ (ih h)

/-- Claim C9: looking up an unregistered name fails with the descriptive
message naming the requested key and listing the registered keys; a
registered name resolves to its registered function; and the missing-name
case is the only way an error arises. -/
theorem c9_registry_lookup {α : Type} (reg : List (String × α)) (name : String) :
    (name ∉ reg.map Prod.fst →
      get_provider reg name =
        Except.error (noRegistradoMsg name (reg.map Prod.fst))) ∧
    (name ∈ reg.map Prod.fst →
      ∃ f, get_provider reg name = Except.ok f ∧ (name, f) ∈ reg) ∧
    (∀ e, get_provider reg name = Except.error e →
      name ∉ reg.map Prod.fst ∧ e = noRegistradoMsg name (reg.map Prod.fst)) := by
  refine ⟨?_, ?_, ?_⟩
  · intro h
    rw [get_provider, (lookupA_none_iff reg name).mpr h]
  · intro h
    cases hq : lookupA reg name with
    | none => exact absurd h ((lookupA_none_iff reg name).mp hq)
    | some f =>
      refine ⟨f, ?_, lookupA_mem reg name f hq⟩
      rw [get_provider, hq]
  · intro e he
    cases hq : lookupA reg name with
    | some f =>
      rw [get_provider, hq] at he
      simp at he
    | none =>
      rw [get_provider, hq] at he
      refine ⟨(lookupA_none_iff reg name).mp hq, ?_⟩
      cases he
      rfl

/-- Witness for C9: the exact error for an unregistered provider name. -/
theorem c9_registry_lookup_witness :
    get_provider [("idc_pdf", (1 : Nat))] ("tecnomega") =
      Except.error (noRegistradoMsg ("tecnomega") ["idc_pdf"]) :=
  (c9_registry_lookup [("idc_pdf", (1 : Nat))] ("tecnomega")).1 (by decide)

theorem stepIdx_eq (s : ScanState) (raw : Line) (i : Nat) :
    stepIdx s raw i = (stepState s raw, i + 1) := by
  simp only [stepIdx, stepState]
  repeat' split
  all_goals rfl

theorem scanCount_eq_sub : ∀ (k : Nat) (lines : List Line) (i : Nat) (s : ScanState),
    lines.length ≤ i + k → scanCount lines i s = lines.length - i := by
  intro k
  induction k with
  | zero =>
    intro lines i s h
    unfold scanCount
    have hi : ¬ i < lines.length := by omega
    simp only [hi, dif_neg, not_false_iff]
    omega
  | succ k ih =>
    intro lines i s h
    unfold scanCount
    by_cases hi : i < lines.length
    · simp only [hi, dif_pos]
      rw [ih lines (i + 1) _ (by omega)]
      omega
    · simp only [hi, dif_neg, not_false_iff]
      omega

theorem scanLoop_eq_foldl : ∀ (k : Nat) (lines : List Line) (i : Nat) (s : ScanState),
    lines.length ≤ i + k → scanLoop lines i s = (lines.drop i).foldl stepState s := by
  intro k
  induction k with
  | zero =>
    intro lines i s h
    unfold scanLoop
    have hi : ¬ i < lines.length := by omega
    simp only [hi, dif_neg, not_false_iff]
    rw [List.drop_eq_nil_of_le (by omega)]
    rfl
  | succ k ih =>
    intro lines i s h
    unfold scanLoop
    by_cases hi : i < lines.length
    · simp only [hi, dif_pos]
      rw [ih lines (i + 1) _ (by omega), List.drop_eq_getElem_cons hi,
        List.foldl_cons, List.get_eq_getElem]
    · simp only [hi, dif_neg, not_false_iff]
      rw [List.drop_eq_nil_of_le (by omega)]
      rfl

/-- Claim C10: the loop index advances by exactly one on every branch of
every iteration, the scan over `n` lines performs exactly `n` iterations,
and the while loop computes the same single forward fold that
`extract_rows_from_text` denotes — in particular the scan terminates. -/
theorem c10_single_pass :
    (∀ (s : ScanState) (raw : Line) (i : Nat), (stepIdx s raw i).2 = i + 1) ∧
    (∀ (s : ScanState) (raw : Line) (i : Nat),
      stepIdx s raw i = (stepState s raw, i + 1)) ∧
    (∀ (lines : List Line) (s : ScanState), scanCount lines 0 s = lines.length) ∧
    (∀ lines : List Line,
      (scanLoop lines 0 initState).rows = extract_rows_from_text lines) := by
  refine ⟨?_, stepIdx_eq, ?_, ?_⟩
  · intro s raw i
    rw [stepIdx_eq]
  · intro lines s
    rw [scanCount_eq_sub lines.length lines 0 s (by omega)]
    omega
  · intro lines
    rw [scanLoop_eq_foldl lines.length lines 0 initState (by omega)]
    rfl

/-- Witness for C10: the iteration count on a concrete three-line input. -/
theorem c10_single_pass_witness :
    scanCount [("a".data), ("SKU IDC".data), ("123456 x $1,00 + iva".data)] 0 initState = 3 :=
  c10_single_pass.2.2.1 _ initState
